import Mathlib

/-
  Verification of the SimpleVCS repository state engine
  (src/simple_vcs/core.py) against its specification.

  The engine's on-disk state is embedded shallowly:
  * machine paths are lists of components (`PathC`), as produced by
    `Path(...).resolve()`;
  * file bytes are `List Nat`;
  * the JSON files `commits.json`, `staging.json` and `HEAD`, and the
    `objects/` directory, are fields of a `State` record — the code reads a
    file fully, mutates the value and rewrites it wholesale, so a field
    update models a persisted write;
  * the working tree outside `.svcs` is an association list from absolute
    resolved path to a node (regular file with content, or directory);
  * zip archives are association lists from archive path to their entry
    list (an archive's byte encoding is kept opaque);
  * SHA-256 digests are modelled by the content itself: the spec assumes
    collision-freedom ("for any two objects with equal digest, byte content
    is equal"), under which the digest is a faithful proxy for the bytes.
-/

set_option linter.unusedVariables false

namespace SimpleVCS

/-- Raw file bytes. -/
abbrev Bytes := List Nat

/-- A resolved filesystem path, as its list of components. -/
abbrev PathC := List String

/-- A node of the filesystem: a regular file with its content, or a
directory.  (`Path.exists` is modelled by presence in the map,
`Path.is_file` by the node being a `file`.) -/
inductive FsNode where
  | file (content : Bytes)
  | dir
deriving DecidableEq

/-- A staging entry, `core.py` lines 91-95: hash, size and mtime of the
staged file. -/
structure Entry where
  hash : Bytes
  size : Nat
  modified : Nat
deriving DecidableEq

/-- A commit record, `core.py` lines 117-123. -/
structure Commit where
  id : Nat
  message : String
  timestamp : Nat
  files : List (PathC × Entry)
  parent : Option Nat
deriving DecidableEq

/-- A zip archive: its entries, each an archive-relative path with the
file's bytes. -/
abbrev Archive := List (PathC × Bytes)

/-- The whole persisted state of one repository instance
(`SimpleVCS.__init__`, `core.py` lines 22-28): the resolved repository
root, whether the `.svcs` metadata directory exists, the commit ledger
(`commits.json`), the staging area (`staging.json`), the `HEAD` integer,
the object store (`objects/`), the working-tree files keyed by absolute
resolved path, and the zip archives on disk. -/
structure State where
  root : PathC
  repoInitialized : Bool
  commits : List Commit
  staging : List (PathC × Entry)
  head : Nat
  objects : List (Bytes × Bytes)
  fs : List (PathC × FsNode)
  archives : List (PathC × Archive)
deriving DecidableEq

/-! ### Association lists (Python `dict` / directory contents) -/

/-- Lookup in an association list (first match wins, as in a `dict`). -/
def lookupA {α β : Type} [DecidableEq α] : List (α × β) → α → Option β
  | [], _ => none
  | kv :: rest, k => if kv.1 = k then some kv.2 else lookupA rest k

/-- Insert-or-overwrite, the semantics of `d[k] = v` on a `dict` (and of
writing a file at a path). -/
def insertA {α β : Type} [DecidableEq α] : List (α × β) → α → β → List (α × β)
  | [], k, v => [(k, v)]
  | kv :: rest, k, v => if kv.1 = k then (k, v) :: rest else kv :: insertA rest k v

/-- Component-wise path containment: the test `Path.relative_to` performs
(`p` lies at or below the directory `l`).  True iff `l` is an initial
segment of `p`. -/
def startsWith {α : Type} [DecidableEq α] : List α → List α → Bool
  | [], _ => true
  | _ :: _, [] => false
  | a :: as, b :: bs => if a = b then startsWith as bs else false

/-! ### Lexicographic string order (Python string comparison, used by `sorted`) -/

/-- Lexicographic order on character lists: Python's string comparison,
which `sorted(...)` uses on path strings. -/
def strLeB : List Char → List Char → Bool
  | [], _ => true
  | _ :: _, [] => false
  | a :: as, b :: bs => if a = b then strLeB as bs else decide (a < b)

/-- Render a repository-relative path the way `str(relative_path)` does. -/
def renderRel (p : PathC) : String := String.intercalate "/" p

/-- Render an absolute path as a string (for contrasting string-prefix
comparison with component-wise containment). -/
def renderAbs (p : PathC) : String := "/" ++ String.intercalate "/" p

/-- Order on paths used by `sorted(...)` in `show_diff`: lexicographic on
the rendered path strings. -/
def pathLe (p q : PathC) : Bool := strLeB (renderRel p).data (renderRel q).data

/-- `pathLe` as a relation. -/
def PathLeR (p q : PathC) : Prop := pathLe p q = true

instance : DecidableRel PathLeR := fun p q => inferInstanceAs (Decidable (_ = true))

instance : IsTotal PathC PathLeR := by
  constructor
  intro p q
  show strLeB (renderRel p).data (renderRel q).data = true ∨
    strLeB (renderRel q).data (renderRel p).data = true
  generalize (renderRel p).data = a
  generalize (renderRel q).data = b
  induction a generalizing b with
  | nil => left; rfl
  | cons x xs ih =>
    cases b with
    | nil => right; rfl
    | cons y ys =>
      by_cases h : x = y
      · subst h
        rcases ih ys with h1 | h1
        · left; simp [strLeB, h1]
        · right; simp [strLeB, h1]
      · rcases lt_or_gt_of_ne h with hlt | hgt
        · left; simp [strLeB, h, hlt]
        · right; simp [strLeB, Ne.symm h, hgt, not_lt_of_gt hgt]

instance : IsTrans PathC PathLeR := by
  constructor
  intro p q r
  show strLeB (renderRel p).data (renderRel q).data = true →
    strLeB (renderRel q).data (renderRel r).data = true →
    strLeB (renderRel p).data (renderRel r).data = true
  generalize (renderRel p).data = a
  generalize (renderRel q).data = b
  generalize (renderRel r).data = c
  induction a generalizing b c with
  | nil => intro h1 h2; rfl
  | cons x xs ih =>
    intro h1 h2
    cases b with
    | nil => simp [strLeB] at h1
    | cons y ys =>
      cases c with
      | nil => simp [strLeB] at h2
      | cons z zs =>
        by_cases hxy : x = y <;> by_cases hyz : y = z
        · subst hxy; subst hyz
          simp [strLeB] at h1 h2 ⊢
          exact ih ys zs h1 h2
        · subst hxy
          simp [strLeB, hyz] at h2 ⊢
          simp [h2]
        · subst hyz
          simp [strLeB, hxy] at h1 ⊢
          simp [h1]
        · simp [strLeB, hxy] at h1
          simp [strLeB, hyz] at h2
          have hxz : x < z := lt_trans h1 h2
          simp [strLeB, ne_of_lt hxz, hxz]

/-- The model of Python's `sorted(...)` on paths. -/
def sortPaths (l : List PathC) : List PathC := l.insertionSort PathLeR

/-! ### Small Python idioms -/

/-- Python `x or y` for an optional string (`None` and `""` are falsy):
used for the commit message default (`core.py` line 119) and the snapshot
name default (line 444). -/
def pyOrStr (m : Option String) (dflt : String) : String :=
  match m with
  | none => dflt
  | some v => if v = "" then dflt else v

/-- Python `x or y` for an optional integer (`None` and `0` are falsy):
used for the `show_diff` id defaults (`core.py` lines 171-172). -/
def pyOrNat (a : Option Nat) (b : Nat) : Nat :=
  match a with
  | none => b
  | some v => if v = 0 then b else v

/-! ### Helper methods of the engine -/

/-- `_check_repo` (`core.py` lines 343-349): the sole repository marker is
the existence of the `.svcs` directory. -/
def check_repo (s : State) : Bool := s.repoInitialized

/-- `_calculate_file_hash` (`core.py` lines 351-357): SHA-256 hex digest of
the file's bytes.  Modelled as the identity on the bytes, which is what the
digest is under the spec's collision-freedom assumption. -/
def calculate_file_hash (b : Bytes) : Bytes := b

/-- `_store_object` (`core.py` lines 359-363): write the blob at the path
named by its digest only if no blob with that digest exists yet. -/
def store_object (objects : List (Bytes × Bytes)) (h : Bytes) (content : Bytes) :
    List (Bytes × Bytes) :=
  match lookupA objects h with
  | some _ => objects
  | none => objects ++ [(h, content)]

/-- `_get_current_commit_id` (`core.py` lines 375-383): parse `HEAD`,
returning the id when positive and `None` otherwise. -/
def get_current_commit_id (s : State) : Option Nat :=
  if 0 < s.head then some s.head else none

/-- `_get_commit_by_id` (`core.py` lines 392-398): linear scan of the
ledger for the first commit with the given id. -/
def get_commit_by_id (s : State) (cid : Nat) : Option Commit :=
  s.commits.find? (fun c => c.id = cid)

/-! ### add_file -/

/-- Outcome of `add_file`, distinguishing the failure messages printed at
`core.py` lines 66-83. -/
inductive AddResult where
  | notRepo
  | notFound
  | notAFile
  | outsideRepo
  | ok
deriving DecidableEq

/-- `add_file` (`core.py` lines 64-103): check the repository marker, then
that the resolved path exists and is a regular file, then containment in
the repository root via `Path.relative_to` (component-wise, raising
`ValueError` for any path not under the root).  On success, store the blob
under its digest and insert a staging entry keyed by the root-relative
path.  The file's `st_mtime` is passed in as `mtime`. -/
def add_file (s : State) (p : PathC) (mtime : Nat) : AddResult × State :=
  if check_repo s = false then (AddResult.notRepo, s)
  else
    match lookupA s.fs p with
    | none => (AddResult.notFound, s)
    | some FsNode.dir => (AddResult.notAFile, s)
    | some (FsNode.file b) =>
      if startsWith s.root p = false then (AddResult.outsideRepo, s)
      else
        let rel := p.drop s.root.length
        let h := calculate_file_hash b
        (AddResult.ok,
          { s with
              objects := store_object s.objects h b,
              staging := insertA s.staging rel { hash := h, size := b.length, modified := mtime } })

/-! ### commit -/

/-- Outcome of `commit`, distinguishing the two failure messages
(`core.py` lines 107-114). -/
inductive CommitResult where
  | notRepo
  | nothingStaged
  | ok
deriving DecidableEq

/-- The generated default message embeds the wall-clock time in a fixed
format (`core.py` line 119); the rendering of the timestamp is abstracted
to `toString`. -/
def commitDefaultMessage (now : Nat) : String := "Commit at " ++ toString now

/-- `commit` (`core.py` lines 105-151): fail when the repository marker is
absent or nothing is staged; otherwise build the commit with
`id = len(ledger) + 1`, `parent` = current HEAD id, append it to the
ledger, persist, set HEAD to the new id, and clear the staging area. -/
def commit (s : State) (message : Option String) (now : Nat) : CommitResult × State :=
  if check_repo s = false then (CommitResult.notRepo, s)
  else if s.staging = [] then (CommitResult.nothingStaged, s)
  else
    (CommitResult.ok,
      { s with
          commits := s.commits ++
            [{ id := s.commits.length + 1,
               message := pyOrStr message (commitDefaultMessage now),
               timestamp := now,
               files := s.staging,
               parent := get_current_commit_id s }],
          head := s.commits.length + 1,
          staging := [] })

/-! ### show_log and status -/

/-- `show_log` (`core.py` lines 231-289): fails on a missing repository or
an empty ledger, succeeds otherwise; it never writes state. -/
def show_log (s : State) (limit : Option Nat) : Bool :=
  if check_repo s = false then false
  else if s.commits = [] then false
  else true

/-- `status` (`core.py` lines 291-340): fails only on a missing
repository; it never writes state. -/
def status (s : State) : Bool :=
  if check_repo s = false then false else true

/-! ### show_diff -/

/-- The path set of a commit's file map (`commit["files"].keys()`). -/
def filesKeys (f : List (PathC × Entry)) : List PathC := f.map Prod.fst

/-- The digest recorded for a path in a file map
(`commit["files"][file]["hash"]`). -/
def hashAt (f : List (PathC × Entry)) (k : PathC) : Option Bytes :=
  (lookupA f k).map Entry.hash

/-- `new_files = sorted(files2 - files1)` (`core.py` line 195). -/
def diffAdded (f1 f2 : List (PathC × Entry)) : List PathC :=
  sortPaths ((filesKeys f2).filter (fun k => decide (k ∉ filesKeys f1)))

/-- `deleted_files = sorted(files1 - files2)` (`core.py` line 203). -/
def diffDeleted (f1 f2 : List (PathC × Entry)) : List PathC :=
  sortPaths ((filesKeys f1).filter (fun k => decide (k ∉ filesKeys f2)))

/-- The modified files: iterate `sorted(files1 & files2)` and keep a path
iff the recorded digests differ (`core.py` lines 209-219).  Size is not
consulted (it only feeds the human-readable size-change column). -/
def diffModified (f1 f2 : List (PathC × Entry)) : List PathC :=
  (sortPaths ((filesKeys f1).filter (fun k => decide (k ∈ filesKeys f2)))).filter
    (fun k => decide (hashAt f1 k ≠ hashAt f2 k))

/-- Outcome of `show_diff`, distinguishing the messages printed at
`core.py` lines 155-176.  A successful comparison carries the added,
deleted and modified path lists; a pair with no differences is the
`ok [] [] []` value (the "No differences found" report, line 222), still a
success. -/
inductive DiffOutcome where
  | notRepo
  | noCommits
  | insufficientHistory
  | invalidCommit
  | ok (added deleted modified : List PathC)
deriving DecidableEq

/-- The successful comparison of two commits (`core.py` lines 189-229). -/
def mkDiff (c1 c2 : Commit) : DiffOutcome :=
  DiffOutcome.ok (diffAdded c1.files c2.files) (diffDeleted c1.files c2.files)
    (diffModified c1.files c2.files)

/-- `show_diff` (`core.py` lines 153-229): after the repository and
non-empty-ledger checks, compare the last two commits when neither id is
supplied (requiring at least two commits), else resolve each side through
`_get_commit_by_id`, a missing first id defaulting to `len(commits) - 1`
and a missing second id to `len(commits)` under Python `or` truthiness.
Negative indexing `commits[-2]`, `commits[-1]` is expressed by matching
the reversed ledger; the fallback arm of that match is unreachable, as at
least two commits exist there. -/
def show_diff (s : State) (id1 id2 : Option Nat) : DiffOutcome :=
  if check_repo s = false then DiffOutcome.notRepo
  else if s.commits = [] then DiffOutcome.noCommits
  else if id1 = none ∧ id2 = none then
    if s.commits.length < 2 then DiffOutcome.insufficientHistory
    else
      match s.commits.reverse with
      | c2 :: c1 :: _ => mkDiff c1 c2
      | _ => DiffOutcome.insufficientHistory
  else
    match get_commit_by_id s (pyOrNat id1 (s.commits.length - 1)),
        get_commit_by_id s (pyOrNat id2 s.commits.length) with
    | some c1, some c2 => mkDiff c1 c2
    | _, _ => DiffOutcome.invalidCommit

/-! ### quick_revert -/

/-- Outcome of `quick_revert` (`core.py` lines 402-408). -/
inductive RevertResult where
  | notRepo
  | commitNotFound
  | ok
deriving DecidableEq

/-- `quick_revert` (`core.py` lines 400-437): look up the target commit;
for each `(path, info)` in its file map copy the backing blob over the
working-tree file at `root/path` when the blob exists, silently skipping
the file otherwise; finally set HEAD to the target id.  The ledger,
staging area and object store are never touched. -/
def quick_revert (s : State) (cid : Nat) : RevertResult × State :=
  if check_repo s = false then (RevertResult.notRepo, s)
  else
    match get_commit_by_id s cid with
    | none => (RevertResult.commitNotFound, s)
    | some c =>
      (RevertResult.ok,
        { s with
            fs := c.files.foldl (fun acc kv =>
              match lookupA s.objects kv.2.hash with
              | some b => insertA acc (s.root ++ kv.1) (FsNode.file b)
              | none => acc) s.fs,
            head := cid })

/-! ### Snapshot archiver -/

/-- True when `p` is strictly under `root` and the top-level entry it
belongs to is not named `.svcs`: exactly the working-tree content that
`restore_from_snapshot` deletes (`core.py` lines 497-502, `iterdir` with
`item.name != '.svcs'`, recursing into directories). -/
def underRootTop (root p : PathC) : Bool :=
  startsWith root p &&
    match p.drop root.length with
    | [] => false
    | c :: _ => decide (c ≠ ".svcs")

/-- True when the `os.walk` of `create_snapshot` reaches the file `p`:
strictly under the root, and no directory on the way down is named
`.svcs` — the walk prunes every directory named `.svcs`, at any depth
(`core.py` lines 457-459), so no component of the relative path other
than the final one (the file's own name) may be `.svcs`. -/
def walkVisits (root p : PathC) : Bool :=
  startsWith root p &&
    match p.drop root.length with
    | [] => false
    | rel => decide (".svcs" ∉ rel.dropLast)

/-- The entries archived by `create_snapshot` (`core.py` lines 456-465):
every regular file the walk reaches, except the archive being written,
stored under its root-relative path. -/
def snapEntries (root arcPath : PathC) : List (PathC × FsNode) → Archive
  | [] => []
  | kv :: rest =>
    match kv.2 with
    | FsNode.file b =>
      if walkVisits root kv.1 && decide (kv.1 ≠ arcPath) then
        (kv.1.drop root.length, b) :: snapEntries root arcPath rest
      else snapEntries root arcPath rest
    | FsNode.dir => snapEntries root arcPath rest

/-- The archive path `create_snapshot` writes: `root/<name>.zip` with the
timestamped default name (`core.py` lines 444-445). -/
def snapArcPath (s : State) (name : Option String) (now : Nat) : PathC :=
  s.root ++ [pyOrStr name ("snapshot_" ++ toString now) ++ ".zip"]

/-- `create_snapshot` (`core.py` lines 439-481): after the repository
check, write a zip of every walked working-tree file at `root/<name>.zip`.
Nothing else changes. -/
def create_snapshot (s : State) (name : Option String) (now : Nat) : Bool × State :=
  if check_repo s = false then (false, s)
  else
    (true,
      { s with
          archives := insertA s.archives (snapArcPath s name now)
            (snapEntries s.root (snapArcPath s name now) s.fs) })

/-- `restore_from_snapshot` (`core.py` lines 483-516): fail only when the
archive path does not exist — the repository marker is never checked.
Otherwise delete every top-level entry of the working tree except `.svcs`
(recursively), then extract every archive entry at its root-relative path.
The ledger, staging area, HEAD and object store are untouched.  Opening a
non-archive file raises in Python; that path is modelled as failure. -/
def restore_from_snapshot (s : State) (arcPath : PathC) : Bool × State :=
  match lookupA s.archives arcPath with
  | none => (false, s)
  | some entries =>
    (true,
      { s with
          fs := entries.foldl (fun acc e => insertA acc (s.root ++ e.1) (FsNode.file e.2))
            (s.fs.filter (fun kv => !underRootTop s.root kv.1)),
          archives := s.archives.filter (fun kv => !underRootTop s.root kv.1) })

/-! ### Object compactor -/

/-- A lossless compression codec: `gzip.open(..., 'wb')` writing and
`gzip.open(..., 'rb')` reading, with the round-trip law decompress-after-
compress is the identity. -/
structure Codec where
  comp : Bytes → Bytes
  decomp : Bytes → Bytes
  roundtrip : ∀ b, decomp (comp b) = b

/-- The trivial codec; any instance of `Codec` witnesses the gzip laws. -/
def idCodec : Codec := ⟨fun b => b, fun b => b, fun _ => rfl⟩

/-- Total byte footprint of the object store
(`sum(f.stat().st_size ...)`, `core.py` lines 523 and 549). -/
def objectsTotalSize (objects : List (Bytes × Bytes)) : Nat :=
  (objects.map (fun o => o.2.length)).sum

/-- `compress_objects` (`core.py` lines 518-569): after the repository
check, select blobs larger than 1024 bytes; when none qualify report
success with nothing processed.  For each qualifying blob the code writes
`comp(blob)` to a `.gz` sibling, deletes the original, then — "for
compatibility" — writes `decomp` of the `.gz` back to the original name
and deletes the `.gz`, so the stored bytes end as
`decomp (comp blob)`. -/
def compress_objects (cz : Codec) (s : State) : Bool × State :=
  if check_repo s = false then (false, s)
  else if s.objects.filter (fun o => decide (1024 < o.2.length)) = [] then (true, s)
  else
    (true,
      { s with
          objects := s.objects.map (fun o =>
            if 1024 < o.2.length then (o.1, cz.decomp (cz.comp o.2)) else o) })

/-! ### Initialization and operation sequences -/

/-- The state right after `init_repo` (`core.py` lines 33-62): metadata
directory created, empty ledger, empty staging area, `HEAD` containing 0,
empty object store. -/
def init_repo (root : PathC) (fs : List (PathC × FsNode)) : State :=
  { root := root, repoInitialized := true, commits := [], staging := [],
    head := 0, objects := [], fs := fs, archives := [] }

/-- A staging or commit step, for reasoning about sequences of commits
with arbitrary interleaved `add_file` calls. -/
inductive Op where
  | addOp (p : PathC) (mtime : Nat)
  | commitOp (message : Option String) (now : Nat)

/-- Run a sequence of add/commit operations. -/
def runOps (s : State) (ops : List Op) : State :=
  ops.foldl (fun acc op =>
    match op with
    | Op.addOp p m => (add_file acc p m).2
    | Op.commitOp msg now => (commit acc msg now).2) s

/-- The ledger shape maintained by add/commit sequences: ids are exactly
`1..N` in order, HEAD names the last commit (0 when none), and the i-th
commit's parent is the id of its predecessor (absent for the first). -/
def LedgerInv (s : State) : Prop :=
  s.commits.map Commit.id = List.range' 1 s.commits.length ∧
  s.head = s.commits.length ∧
  s.commits.map Commit.parent =
    (List.range s.commits.length).map (fun i => if i = 0 then none else some i)

/-- A sequence of best-effort file writes under `root`: for each job,
write the file when bytes are available, else skip it.  Both the revert
loop and the archive extraction loop are instances of this shape. -/
def writeMany (root : PathC) (jobs : List (PathC × Option Bytes))
    (fs : List (PathC × FsNode)) : List (PathC × FsNode) :=
  jobs.foldl (fun acc j =>
    match j.2 with
    | some b => insertA acc (root ++ j.1) (FsNode.file b)
    | none => acc) fs

/-- Hypothesis for the snapshot round trip: every working-tree entry the
restore deletion reaches is a regular file (not a directory, whose
emptiness the archive could not record) with no directory named `.svcs`
on its relative path (so the snapshot walk reaches it too). -/
def SnapSafe (s : State) : Prop :=
  ∀ kv ∈ s.fs, underRootTop s.root kv.1 = true →
    kv.2 ≠ FsNode.dir ∧ ".svcs" ∉ (kv.1.drop s.root.length).dropLast

/-! ### Concrete states used by the witnesses and counterexamples -/

/-- A one-file staging area over a fresh ledger. -/
def c1State : State :=
  { root := ["r"], repoInitialized := true, commits := [],
    staging := [(["a.txt"], { hash := [1], size := 1, modified := 0 })],
    head := 0, objects := [([1], [1])], fs := [], archives := [] }

/-- First commit of the two-commit demo ledger. -/
def c3c1 : Commit :=
  { id := 1, message := "one", timestamp := 1,
    files := [(["a.txt"], { hash := [1], size := 1, modified := 0 })], parent := none }

/-- Second commit of the two-commit demo ledger: same file, new digest. -/
def c3c2 : Commit :=
  { id := 2, message := "two", timestamp := 2,
    files := [(["a.txt"], { hash := [2], size := 1, modified := 1 })], parent := some 1 }

/-- Two commits over the same single file with different digests. -/
def c3State : State :=
  { root := ["r"], repoInitialized := true, commits := [c3c1, c3c2],
    staging := [], head := 2, objects := [([1], [1]), ([2], [2])],
    fs := [], archives := [] }

/-- A commit referencing one blob with a backing object (`good.txt`) and
one whose object is missing from the store (`bad.txt`). -/
def c4commit : Commit :=
  { id := 1, message := "one", timestamp := 1,
    files := [(["good.txt"], { hash := [1], size := 1, modified := 0 }),
              (["bad.txt"], { hash := [9], size := 1, modified := 0 })],
    parent := none }

/-- A ledger whose single commit references one blob with a backing
object and one whose object is missing from the store. -/
def c4State : State :=
  { root := ["r"], repoInitialized := true, commits := [c4commit],
    staging := [], head := 1, objects := [([1], [1])],
    fs := [(["r", "bad.txt"], FsNode.file [5]), (["x"], FsNode.file [6])],
    archives := [] }

/-- An object store holding one compressible blob above the 1024-byte
threshold. -/
def c5State : State :=
  { root := ["r"], repoInitialized := true, commits := [], staging := [],
    head := 0, objects := [(List.replicate 2000 7, List.replicate 2000 7)],
    fs := [], archives := [] }

/-- No `.svcs` directory, yet an archive and a working-tree file exist. -/
def c6State : State :=
  { root := ["r"], repoInitialized := false, commits := [], staging := [],
    head := 0, objects := [], fs := [(["r", "f.txt"], FsNode.file [1])],
    archives := [(["a.zip"], [(["g.txt"], [2])])] }

/-- A repository root and a sibling whose rendered path the root's
rendered path is a string prefix of. -/
def c7State : State :=
  { root := ["repo"], repoInitialized := true, commits := [], staging := [],
    head := 0, objects := [], fs := [(["repo2", "x"], FsNode.file [3])],
    archives := [] }

/-- An initialized repository with an empty ledger. -/
def c8Empty : State :=
  { root := ["r"], repoInitialized := true, commits := [], staging := [],
    head := 0, objects := [], fs := [], archives := [] }

/-- A working tree containing a nested directory named `.svcs` below the
root (not the metadata directory) with a file inside it. -/
def c9State : State :=
  { root := ["r"], repoInitialized := true, commits := [], staging := [],
    head := 0, objects := [],
    fs := [(["r", "a", ".svcs", "f.txt"], FsNode.file [7]),
           (["r", "ok.txt"], FsNode.file [1])],
    archives := [] }

/-- A clean working tree with files inside and outside the root and under
the metadata directory. -/
def c9Good : State :=
  { root := ["r"], repoInitialized := true, commits := [], staging := [],
    head := 0, objects := [],
    fs := [(["r", "a.txt"], FsNode.file [1]),
           (["r", "d", "b.txt"], FsNode.file [2]),
           (["r", ".svcs", "HEAD"], FsNode.file [48]),
           (["x", "c.txt"], FsNode.file [3])],
    archives := [] }

/-- A repository whose metadata `HEAD` file is itself visible as a
working-tree file. -/
def c10State : State :=
  { root := ["r"], repoInitialized := true, commits := [], staging := [],
    head := 0, objects := [],
    fs := [(["r", ".svcs", "HEAD"], FsNode.file [48])],
    archives := [] }

/-! ## Helper lemmas -/

theorem lookupA_insertA_self {α β : Type} [DecidableEq α] (l : List (α × β)) (k : α) (v : β) :
    lookupA (insertA l k v) k = some v := by
  induction l with
  | nil => simp [insertA, lookupA]
  | cons kv rest ih =>
    by_cases h : kv.1 = k
    · simp [insertA, h, lookupA]
    · simp [insertA, h, lookupA, ih]

theorem lookupA_insertA_ne {α β : Type} [DecidableEq α] (l : List (α × β)) (k k' : α) (v : β)
    (h : k' ≠ k) : lookupA (insertA l k v) k' = lookupA l k' := by
  have hne : ¬(k = k') := fun hh => h hh.symm
  induction l with
  | nil => simp [insertA, lookupA, hne]
  | cons kv rest ih =>
    by_cases hk : kv.1 = k
    · subst hk
      have hne2 : ¬(kv.1 = k') := hne
      simp [insertA, lookupA, hne2]
    · simp [insertA, hk, lookupA, ih]

theorem lookupA_eq_none_iff {α β : Type} [DecidableEq α] (l : List (α × β)) (k : α) :
    lookupA l k = none ↔ k ∉ l.map Prod.fst := by
  induction l with
  | nil => simp [lookupA]
  | cons kv rest ih =>
    by_cases h : kv.1 = k
    · simp [lookupA, h]
    · have hne : ¬(k = kv.1) := fun hh => h hh.symm
      simp [lookupA, h, ih, hne]

theorem lookupA_some_mem {α β : Type} [DecidableEq α] (l : List (α × β)) (k : α) (v : β)
    (h : lookupA l k = some v) : (k, v) ∈ l := by
  induction l with
  | nil => simp [lookupA] at h
  | cons kv rest ih =>
    obtain ⟨a, b⟩ := kv
    by_cases hk : a = k
    · simp [lookupA, hk] at h
      subst hk
      subst h
      exact List.mem_cons_self _ _
    · simp [lookupA, hk] at h
      exact List.mem_cons_of_mem _ (ih h)

/-- Lookup commutes with filtering by a predicate on the key alone. -/
theorem lookupA_filter_key {α β : Type} [DecidableEq α] (pr : α → Bool) (l : List (α × β)) (k : α) :
    lookupA (l.filter (fun kv => pr kv.1)) k = if pr k then lookupA l k else none := by
  induction l with
  | nil => simp [lookupA]
  | cons kv rest ih =>
    by_cases hk : kv.1 = k
    · subst hk
      by_cases hp : pr kv.1
      · simp [List.filter, hp, lookupA, ih]
      · simp [List.filter, hp, lookupA, ih, Bool.eq_false_iff.2 hp]
    · by_cases hp : pr kv.1
      · simp [List.filter, hp, lookupA, hk, ih]
      · simp [List.filter, hp, lookupA, hk, ih]

theorem sortPaths_sorted (l : List PathC) : List.Sorted PathLeR (sortPaths l) :=
  List.sorted_insertionSort _ l

theorem mem_sortPaths (a : PathC) (l : List PathC) : a ∈ sortPaths l ↔ a ∈ l :=
  (List.perm_insertionSort PathLeR l).mem_iff

theorem startsWith_append_self {α : Type} [DecidableEq α] (l t : List α) :
    startsWith l (l ++ t) = true := by
  induction l with
  | nil => rfl
  | cons a as ih => simp [startsWith, ih]

theorem append_drop_of_startsWith {α : Type} [DecidableEq α] :
    ∀ (l p : List α), startsWith l p = true → l ++ p.drop l.length = p
  | [], p, _ => by simp
  | a :: as, [], h => by simp [startsWith] at h
  | a :: as, b :: bs, h => by
    by_cases hab : a = b
    · subst hab
      simp [startsWith] at h
      simp [append_drop_of_startsWith as bs h]
    · simp [startsWith, hab] at h

theorem writeMany_lookup_miss (root : PathC) (jobs : List (PathC × Option Bytes))
    (fs : List (PathC × FsNode)) (q : PathC)
    (h : ∀ j ∈ jobs, root ++ j.1 ≠ q) :
    lookupA (writeMany root jobs fs) q = lookupA fs q := by
  induction jobs generalizing fs with
  | nil => rfl
  | cons j rest ih =>
    obtain ⟨k, ob⟩ := j
    have hq : root ++ k ≠ q := h (k, ob) (List.mem_cons_self _ _)
    have hrest : ∀ j ∈ rest, root ++ j.1 ≠ q := fun j hj => h j (List.mem_cons_of_mem _ hj)
    cases ob with
    | none =>
      show lookupA (writeMany root rest fs) q = lookupA fs q
      exact ih fs hrest
    | some b =>
      show lookupA (writeMany root rest (insertA fs (root ++ k) (FsNode.file b))) q =
        lookupA fs q
      rw [ih _ hrest]
      exact lookupA_insertA_ne _ _ _ _ (fun hh => hq hh.symm)

theorem writeMany_lookup_hit (root : PathC) (jobs : List (PathC × Option Bytes))
    (fs : List (PathC × FsNode)) (k : PathC) (ob : Option Bytes)
    (hmem : (k, ob) ∈ jobs) (hnd : (jobs.map Prod.fst).Nodup) :
    lookupA (writeMany root jobs fs) (root ++ k) =
      Option.elim ob (lookupA fs (root ++ k)) (fun b => some (FsNode.file b)) := by
  induction jobs generalizing fs with
  | nil => simp at hmem
  | cons j rest ih =>
    obtain ⟨k0, ob0⟩ := j
    have hnd2 : k0 ∉ rest.map Prod.fst ∧ (rest.map Prod.fst).Nodup := by
      simpa [List.nodup_cons] using hnd
    rcases List.mem_cons.mp hmem with heq | htail
    · cases heq
      have hmiss : ∀ j ∈ rest, root ++ j.1 ≠ root ++ k := by
        intro j hj hcontra
        exact hnd2.1 (List.append_cancel_left hcontra ▸ List.mem_map_of_mem Prod.fst hj)
      cases ob with
      | none =>
        show lookupA (writeMany root rest fs) (root ++ k) = lookupA fs (root ++ k)
        exact writeMany_lookup_miss root rest fs _ hmiss
      | some b =>
        show lookupA (writeMany root rest (insertA fs (root ++ k) (FsNode.file b)))
            (root ++ k) = some (FsNode.file b)
        rw [writeMany_lookup_miss root rest _ _ hmiss]
        exact lookupA_insertA_self _ _ _
    · have hkk0 : k ≠ k0 := by
        intro hh
        exact hnd2.1 (hh ▸ List.mem_map_of_mem Prod.fst htail)
      cases ob0 with
      | none =>
        show lookupA (writeMany root rest fs) (root ++ k) = _
        exact ih fs htail hnd2.2
      | some b =>
        show lookupA (writeMany root rest (insertA fs (root ++ k0) (FsNode.file b)))
            (root ++ k) = _
        rw [ih _ htail hnd2.2]
        cases ob with
        | some b2 => rfl
        | none =>
          exact lookupA_insertA_ne _ _ _ _
            (fun hh => hkk0 (List.append_cancel_left hh))

/-! ## C1: commit atomicity -/

/-- C1: for every repository state, `commit` with a non-empty staging area
performs all four effects at once — it appends exactly one commit record
(with id `len(ledger) + 1`, the staged file map and the pre-commit HEAD as
parent) to the persisted ledger, sets HEAD to the new commit's id, and
empties the staging area — and `commit` with an empty staging area fails
with the nothing-staged outcome, returning the state exactly as it was. -/
theorem commit_atomic (s : State) (message : Option String) (now : Nat)
    (hrepo : s.repoInitialized = true) :
    (s.staging ≠ [] →
      commit s message now =
        (CommitResult.ok,
          { s with
              commits := s.commits ++
                [{ id := s.commits.length + 1,
                   message := pyOrStr message (commitDefaultMessage now),
                   timestamp := now,
                   files := s.staging,
                   parent := get_current_commit_id s }],
              head := s.commits.length + 1,
              staging := [] })) ∧
    (s.staging = [] → commit s message now = (CommitResult.nothingStaged, s)) := by
  constructor <;> intro h <;> simp [commit, check_repo, hrepo, h]

/-- Witness for C1 at a concrete one-file staging area. -/
theorem commit_atomic_witness :
    c1State.repoInitialized = true ∧ c1State.staging ≠ [] ∧
    commit c1State (some "m") 5 =
      (CommitResult.ok,
        { c1State with
            commits := c1State.commits ++
              [{ id := c1State.commits.length + 1,
                 message := pyOrStr (some "m") (commitDefaultMessage 5),
                 timestamp := 5,
                 files := c1State.staging,
                 parent := get_current_commit_id c1State }],
            head := c1State.commits.length + 1,
            staging := [] }) :=
  ⟨rfl, by decide, (commit_atomic c1State (some "m") 5 rfl).1 (by decide)⟩

/-! ## C5: object compaction saves nothing -/

/-- C5 (code bug): `compress_objects` writes the compressed form of each
qualifying blob to a `.gz` sibling but then decompresses it back over the
original name and deletes the `.gz`, so for every lossless codec the
object store is left with its original contents and its total footprint is
unchanged — the bytes saved are zero, not positive as claimed; when no
blob qualifies the operation still reports success. -/
theorem compress_objects_no_savings (cz : Codec) (s : State)
    (hrepo : s.repoInitialized = true) :
    compress_objects cz s = (true, s) ∧
    objectsTotalSize (compress_objects cz s).2.objects = objectsTotalSize s.objects := by
  have hmap : s.objects.map (fun o =>
      if 1024 < o.2.length then (o.1, cz.decomp (cz.comp o.2)) else o) = s.objects := by
    have hcong : ∀ o ∈ s.objects,
        (if 1024 < o.2.length then (o.1, cz.decomp (cz.comp o.2)) else o) = o := by
      intro o _
      by_cases h : 1024 < o.2.length
      · simp [h, cz.roundtrip]
      · simp [h]
    calc s.objects.map (fun o => if 1024 < o.2.length then (o.1, cz.decomp (cz.comp o.2)) else o)
        = s.objects.map id := List.map_congr_left hcong
      _ = s.objects := List.map_id _
  have heq : compress_objects cz s = (true, s) := by
    obtain ⟨rt, ri, cs, st, hd, ob, f, ar⟩ := s
    simp only at hrepo hmap
    subst hrepo
    by_cases hq : ob.filter (fun o => decide (1024 < o.2.length)) = []
    · simp [compress_objects, check_repo, hq]
    · simp [compress_objects, check_repo, hq, hmap]
  exact ⟨heq, by rw [heq]⟩

/-- Witness for C5 at an object store holding a 2000-byte blob (the
concrete failing input for the claimed strict shrink). -/
theorem compress_objects_no_savings_witness :
    c5State.repoInitialized = true ∧
    compress_objects idCodec c5State = (true, c5State) ∧
    objectsTotalSize (compress_objects idCodec c5State).2.objects =
      objectsTotalSize c5State.objects :=
  ⟨rfl, (compress_objects_no_savings idCodec c5State rfl).1,
    (compress_objects_no_savings idCodec c5State rfl).2⟩

/-! ## C6: the repository-marker precondition -/

/-- C6 (amended): when the metadata directory is absent, `add_file`,
`commit`, `show_diff`, `show_log`, `status`, `quick_revert`,
`create_snapshot` and `compress_objects` all fail with the
not-a-repository outcome and leave the state exactly as it was —
but `restore_from_snapshot` is excluded: it never performs the check. -/
theorem ops_require_init (s : State) (h : s.repoInitialized = false) :
    (∀ p m, add_file s p m = (AddResult.notRepo, s)) ∧
    (∀ msg now, commit s msg now = (CommitResult.notRepo, s)) ∧
    (∀ i1 i2, show_diff s i1 i2 = DiffOutcome.notRepo) ∧
    (∀ lim, show_log s lim = false) ∧
    status s = false ∧
    (∀ cid, quick_revert s cid = (RevertResult.notRepo, s)) ∧
    (∀ nm now, create_snapshot s nm now = (false, s)) ∧
    (∀ cz, compress_objects cz s = (false, s)) := by
  refine ⟨?_, ?_, ?_, ?_, ?_, ?_, ?_, ?_⟩ <;>
    intros <;>
      simp [add_file, commit, show_diff, show_log, status, quick_revert,
        create_snapshot, compress_objects, check_repo, h]

/-- Witness for C6 (amended) at a concrete uninitialized state. -/
theorem ops_require_init_witness :
    c6State.repoInitialized = false ∧
    add_file c6State ["r", "f.txt"] 0 = (AddResult.notRepo, c6State) ∧
    commit c6State none 0 = (CommitResult.notRepo, c6State) ∧
    show_diff c6State none none = DiffOutcome.notRepo ∧
    show_log c6State none = false ∧
    status c6State = false ∧
    quick_revert c6State 1 = (RevertResult.notRepo, c6State) ∧
    create_snapshot c6State none 0 = (false, c6State) ∧
    compress_objects idCodec c6State = (false, c6State) := by
  have h := ops_require_init c6State rfl
  exact ⟨rfl, h.1 _ _, h.2.1 _ _, h.2.2.1 _ _, h.2.2.2.1 _, h.2.2.2.2.1,
    h.2.2.2.2.2.1 _, h.2.2.2.2.2.2.1 _ _, h.2.2.2.2.2.2.2 _⟩

/-- C6 counterexample: with no metadata directory but an existing archive,
`restore_from_snapshot` succeeds and rewrites the working tree — the claim
that every non-initialization operation fails with no state change when
the metadata directory is missing is false for restore. -/
theorem restore_skips_repo_check :
    c6State.repoInitialized = false ∧
    (restore_from_snapshot c6State ["a.zip"]).1 = true ∧
    (restore_from_snapshot c6State ["a.zip"]).2.fs ≠ c6State.fs := by
  decide

theorem lookupA_append_single {α β : Type} [DecidableEq α] (l : List (α × β)) (k : α) (v : β)
    (h : lookupA l k = none) : lookupA (l ++ [(k, v)]) k = some v := by
  induction l with
  | nil => simp [lookupA]
  | cons kv rest ih =>
    by_cases hk : kv.1 = k
    · simp [lookupA, hk] at h
    · simp [lookupA, hk] at h ⊢
      exact ih h

/-! ## C7: outside-repository rejection -/

/-- C7: adding an existing regular file whose resolved path is not a
descendant of the repository root fails with the outside-repository
outcome and changes nothing — staging area and object store included —
and the containment test is component-wise path containment, not string
prefix comparison: for root `/repo` and file `/repo2/x` the rendered root
is a string prefix of the rendered path, yet containment fails. -/
theorem add_outside_rejected :
    (∀ (s : State) (p : PathC) (m : Nat) (b : Bytes),
      s.repoInitialized = true →
      lookupA s.fs p = some (FsNode.file b) →
      startsWith s.root p = false →
      add_file s p m = (AddResult.outsideRepo, s)) ∧
    (startsWith (renderAbs ["repo"]).data (renderAbs ["repo2", "x"]).data = true ∧
      startsWith ["repo"] ["repo2", "x"] = false) := by
  constructor
  · intro s p m b hrepo hfile hout
    simp [add_file, check_repo, hrepo, hfile, hout]
  · exact ⟨by decide, by decide⟩

/-- Witness for C7 at the concrete root `/repo` and file `/repo2/x`. -/
theorem add_outside_rejected_witness :
    c7State.repoInitialized = true ∧
    lookupA c7State.fs ["repo2", "x"] = some (FsNode.file [3]) ∧
    startsWith c7State.root ["repo2", "x"] = false ∧
    add_file c7State ["repo2", "x"] 0 = (AddResult.outsideRepo, c7State) :=
  ⟨rfl, by decide, by decide,
    add_outside_rejected.1 c7State ["repo2", "x"] 0 [3] rfl (by decide) (by decide)⟩

/-! ## C10: the metadata directory is not excluded from add -/

/-- C10 (implicit): the containment check of `add_file` does not exclude
the engine's own metadata directory — for every regular file under
`root/.svcs` the add succeeds, stores the file's bytes in the object
store under their digest, and creates a staging entry keyed by the
repository-relative path (whose rendering for the `HEAD` file is
`.svcs/HEAD`), so internal state files can be staged like ordinary
working-tree files. -/
theorem add_inside_metadata_staged (s : State) (rel : PathC) (m : Nat) (b : Bytes)
    (hrepo : s.repoInitialized = true)
    (hfile : lookupA s.fs (s.root ++ (".svcs" :: rel)) = some (FsNode.file b)) :
    add_file s (s.root ++ (".svcs" :: rel)) m =
      (AddResult.ok,
        { s with
            objects := store_object s.objects (calculate_file_hash b) b,
            staging := insertA s.staging (".svcs" :: rel)
              { hash := calculate_file_hash b, size := b.length, modified := m } }) ∧
    lookupA (add_file s (s.root ++ (".svcs" :: rel)) m).2.staging (".svcs" :: rel) =
      some { hash := calculate_file_hash b, size := b.length, modified := m } ∧
    (lookupA s.objects (calculate_file_hash b) = none →
      lookupA (add_file s (s.root ++ (".svcs" :: rel)) m).2.objects (calculate_file_hash b) =
        some b) ∧
    renderRel [".svcs", "HEAD"] = ".svcs/HEAD" := by
  have hin : startsWith s.root (s.root ++ (".svcs" :: rel)) = true := startsWith_append_self _ _
  have hdrop : (s.root ++ (".svcs" :: rel)).drop s.root.length = ".svcs" :: rel :=
    List.drop_left _ _
  have hstep : add_file s (s.root ++ (".svcs" :: rel)) m =
      (AddResult.ok,
        { s with
            objects := store_object s.objects (calculate_file_hash b) b,
            staging := insertA s.staging (".svcs" :: rel)
              { hash := calculate_file_hash b, size := b.length, modified := m } }) := by
    simp [add_file, check_repo, hrepo, hfile, hin, hdrop]
  refine ⟨hstep, ?_, ?_, rfl⟩
  · rw [hstep]
    exact lookupA_insertA_self _ _ _
  · intro hnone
    rw [hstep]
    simp only [store_object, hnone]
    exact lookupA_append_single _ _ _ hnone

/-- Witness for C10 at the repository's own `HEAD` file. -/
theorem add_inside_metadata_staged_witness :
    c10State.repoInitialized = true ∧
    lookupA c10State.fs (c10State.root ++ (".svcs" :: ["HEAD"])) = some (FsNode.file [48]) ∧
    add_file c10State (c10State.root ++ (".svcs" :: ["HEAD"])) 0 =
      (AddResult.ok,
        { c10State with
            objects := store_object c10State.objects (calculate_file_hash [48]) [48],
            staging := insertA c10State.staging (".svcs" :: ["HEAD"])
              { hash := calculate_file_hash [48], size := List.length [48], modified := 0 } }) :=
  ⟨rfl, by decide,
    (add_inside_metadata_staged c10State ["HEAD"] 0 [48] rfl (by decide)).1⟩

/-! ## C3: the diff algorithm -/

theorem diffAdded_self (f : List (PathC × Entry)) : diffAdded f f = [] := by
  have hf : List.filter (fun k => decide (k ∉ filesKeys f)) (filesKeys f) = [] := by
    simp [List.filter_eq_nil_iff]
  unfold diffAdded sortPaths
  rw [hf]
  rfl

theorem diffDeleted_self (f : List (PathC × Entry)) : diffDeleted f f = [] := by
  have hf : List.filter (fun k => decide (k ∉ filesKeys f)) (filesKeys f) = [] := by
    simp [List.filter_eq_nil_iff]
  unfold diffDeleted sortPaths
  rw [hf]
  rfl

theorem diffModified_self (f : List (PathC × Entry)) : diffModified f f = [] := by
  simp [diffModified, List.filter_eq_nil_iff]

/-- C3: for every pair of file maps, the diff reports as added exactly the
paths of the second map missing from the first, as deleted exactly the
paths of the first missing from the second, and a common path as modified
exactly when its recorded digest differs between the two maps — sizes play
no part in the decision; each of the three reports is in lexical
(rendered-path) order; and a pair with identical file maps yields the
successful empty report, not an error. -/
theorem diff_engine_correct :
    (∀ (f1 f2 : List (PathC × Entry)) (k : PathC),
      k ∈ diffAdded f1 f2 ↔ (k ∈ filesKeys f2 ∧ k ∉ filesKeys f1)) ∧
    (∀ (f1 f2 : List (PathC × Entry)) (k : PathC),
      k ∈ diffDeleted f1 f2 ↔ (k ∈ filesKeys f1 ∧ k ∉ filesKeys f2)) ∧
    (∀ (f1 f2 : List (PathC × Entry)) (k : PathC),
      k ∈ diffModified f1 f2 ↔
        (k ∈ filesKeys f1 ∧ k ∈ filesKeys f2 ∧ hashAt f1 k ≠ hashAt f2 k)) ∧
    (∀ (f1 f2 : List (PathC × Entry)),
      List.Sorted PathLeR (diffAdded f1 f2) ∧ List.Sorted PathLeR (diffDeleted f1 f2) ∧
        List.Sorted PathLeR (diffModified f1 f2)) ∧
    (∀ c1 c2 : Commit, c1.files = c2.files → mkDiff c1 c2 = DiffOutcome.ok [] [] []) := by
  refine ⟨?_, ?_, ?_, ?_, ?_⟩
  · intro f1 f2 k
    simp [diffAdded, mem_sortPaths, List.mem_filter]
  · intro f1 f2 k
    simp [diffDeleted, mem_sortPaths, List.mem_filter]
  · intro f1 f2 k
    simp [diffModified, List.mem_filter, mem_sortPaths]
    tauto
  · intro f1 f2
    exact ⟨sortPaths_sorted _, sortPaths_sorted _, (sortPaths_sorted _).filter _⟩
  · intro c1 c2 h
    simp [mkDiff, h, diffAdded_self, diffDeleted_self, diffModified_self]

/-- Witness for C3: the spec's own example pair (`{a, b}` versus
`{b, c}`, with `b` unchanged) and the identical-maps case. -/
theorem diff_engine_correct_witness :
    (["c.txt"] ∈ diffAdded
        [(["a.txt"], { hash := [1], size := 1, modified := 0 }),
         (["b.txt"], { hash := [2], size := 1, modified := 0 })]
        [(["b.txt"], { hash := [2], size := 1, modified := 0 }),
         (["c.txt"], { hash := [3], size := 1, modified := 0 })] ↔
      (["c.txt"] ∈ filesKeys
          [(["b.txt"], { hash := [2], size := 1, modified := 0 }),
           (["c.txt"], { hash := [3], size := 1, modified := 0 })] ∧
        ["c.txt"] ∉ filesKeys
          [(["a.txt"], { hash := [1], size := 1, modified := 0 }),
           (["b.txt"], { hash := [2], size := 1, modified := 0 })])) ∧
    mkDiff c3c1 c3c1 = DiffOutcome.ok [] [] [] :=
  ⟨diff_engine_correct.1 _ _ _, diff_engine_correct.2.2.2.2 c3c1 c3c1 rfl⟩

/-! ## C8: diff defaults and id resolution -/

/-- C8 counterexample: on an initialized repository whose ledger is empty
— fewer than two commits exist — parameterless diff fails with the
no-commits outcome, not the insufficient-history outcome the claim
names. -/
theorem diff_empty_ledger_not_insufficient :
    c8Empty.commits.length < 2 ∧
    show_diff c8Empty none none = DiffOutcome.noCommits ∧
    show_diff c8Empty none none ≠ DiffOutcome.insufficientHistory := by
  decide

/-- C8 (amended): with no identifiers, diff fails with the no-commits
outcome on an empty ledger and the insufficient-history outcome when
exactly one commit exists, and otherwise compares the second-to-last and
last commits; when exactly one identifier is supplied (nonzero, since
Python `or` treats 0 as missing), the missing first defaults to
`len(ledger) - 1` and the missing second to `len(ledger)`, each resolved
through the by-id lookup, failing with the invalid-commit outcome if
either lookup resolves to nothing. -/
theorem show_diff_defaults (s : State) (hrepo : s.repoInitialized = true) :
    (∀ i1 i2, s.commits = [] → show_diff s i1 i2 = DiffOutcome.noCommits) ∧
    (s.commits.length = 1 → show_diff s none none = DiffOutcome.insufficientHistory) ∧
    (∀ l c1 c2, s.commits = l ++ [c1, c2] → show_diff s none none = mkDiff c1 c2) ∧
    (∀ j c1 c2, j ≠ 0 → get_commit_by_id s (s.commits.length - 1) = some c1 →
      get_commit_by_id s j = some c2 → show_diff s none (some j) = mkDiff c1 c2) ∧
    (∀ j, j ≠ 0 → s.commits ≠ [] →
      (get_commit_by_id s (s.commits.length - 1) = none ∨ get_commit_by_id s j = none) →
      show_diff s none (some j) = DiffOutcome.invalidCommit) ∧
    (∀ i c1 c2, i ≠ 0 → get_commit_by_id s i = some c1 →
      get_commit_by_id s s.commits.length = some c2 →
      show_diff s (some i) none = mkDiff c1 c2) ∧
    (∀ i, i ≠ 0 → s.commits ≠ [] →
      (get_commit_by_id s i = none ∨ get_commit_by_id s s.commits.length = none) →
      show_diff s (some i) none = DiffOutcome.invalidCommit) := by
  refine ⟨?_, ?_, ?_, ?_, ?_, ?_, ?_⟩
  · intro i1 i2 h
    simp [show_diff, check_repo, hrepo, h]
  · intro hlen
    have hne : s.commits ≠ [] := by
      intro h
      rw [h] at hlen
      simp at hlen
    simp [show_diff, check_repo, hrepo, hne, hlen]
  · intro l c1 c2 hsc
    have hne : s.commits ≠ [] := by simp [hsc]
    have hlen : ¬((l ++ [c1, c2]).length < 2) := by simp
    simp [show_diff, check_repo, hrepo, hne, hsc, hlen]
  · intro j c1 c2 hj h1 h2
    have hne : s.commits ≠ [] :=
      List.ne_nil_of_mem (List.mem_of_find?_eq_some h2)
    simp [show_diff, check_repo, hrepo, hne, pyOrNat, hj, h1, h2]
  · intro j hj hne hdisj
    rcases hdisj with h1 | h2
    · simp [show_diff, check_repo, hrepo, hne, pyOrNat, hj, h1]
    · cases hget : get_commit_by_id s (s.commits.length - 1) with
      | none => simp [show_diff, check_repo, hrepo, hne, pyOrNat, hj, hget]
      | some c => simp [show_diff, check_repo, hrepo, hne, pyOrNat, hj, hget, h2]
  · intro i c1 c2 hi h1 h2
    have hne : s.commits ≠ [] :=
      List.ne_nil_of_mem (List.mem_of_find?_eq_some h1)
    simp [show_diff, check_repo, hrepo, hne, pyOrNat, hi, h1, h2]
  · intro i hi hne hdisj
    rcases hdisj with h1 | h2
    · simp [show_diff, check_repo, hrepo, hne, pyOrNat, hi, h1]
    · cases hget : get_commit_by_id s i with
      | none => simp [show_diff, check_repo, hrepo, hne, pyOrNat, hi, hget]
      | some c => simp [show_diff, check_repo, hrepo, hne, pyOrNat, hi, hget, h2]

/-- Witness for C8 (amended) on the concrete two-commit ledger. -/
theorem show_diff_defaults_witness :
    c3State.repoInitialized = true ∧
    c3State.commits = [] ++ [c3c1, c3c2] ∧
    show_diff c3State none none = mkDiff c3c1 c3c2 :=
  ⟨rfl, rfl, (show_diff_defaults c3State rfl).2.2.1 [] c3c1 c3c2 rfl⟩

/-! ## C4: revert semantics and fault isolation -/

theorem quick_revert_fold_eq (s : State) (c : Commit) :
    c.files.foldl (fun acc kv =>
      match lookupA s.objects kv.2.hash with
      | some b => insertA acc (s.root ++ kv.1) (FsNode.file b)
      | none => acc) s.fs =
    writeMany s.root (c.files.map (fun kv => (kv.1, lookupA s.objects kv.2.hash))) s.fs := by
  rw [writeMany, List.foldl_map]

/-- C4: for every ledger commit, revert succeeds; it sets HEAD to the
target id after attempting all files; it never mutates the ledger, the
staging area, the object store or the archives; every file in the
commit's map whose backing blob exists is written (created or
overwritten) at its root-relative location with the blob's bytes; every
file whose blob is missing is silently skipped, leaving that working-tree
path as it was; and all working-tree paths not named by the commit's file
map are untouched. -/
theorem quick_revert_spec (s : State) (cid : Nat) (c : Commit)
    (hrepo : s.repoInitialized = true)
    (hc : get_commit_by_id s cid = some c)
    (hnd : (c.files.map Prod.fst).Nodup) :
    (quick_revert s cid).1 = RevertResult.ok ∧
    (quick_revert s cid).2.head = cid ∧
    (quick_revert s cid).2.commits = s.commits ∧
    (quick_revert s cid).2.staging = s.staging ∧
    (quick_revert s cid).2.objects = s.objects ∧
    (quick_revert s cid).2.archives = s.archives ∧
    (∀ k e b, (k, e) ∈ c.files → lookupA s.objects e.hash = some b →
      lookupA (quick_revert s cid).2.fs (s.root ++ k) = some (FsNode.file b)) ∧
    (∀ k e, (k, e) ∈ c.files → lookupA s.objects e.hash = none →
      lookupA (quick_revert s cid).2.fs (s.root ++ k) = lookupA s.fs (s.root ++ k)) ∧
    (∀ q, (∀ k, k ∈ c.files.map Prod.fst → q ≠ s.root ++ k) →
      lookupA (quick_revert s cid).2.fs q = lookupA s.fs q) := by
  have hqr : quick_revert s cid =
      (RevertResult.ok,
        { s with
            fs := c.files.foldl (fun acc kv =>
              match lookupA s.objects kv.2.hash with
              | some b => insertA acc (s.root ++ kv.1) (FsNode.file b)
              | none => acc) s.fs,
            head := cid }) := by
    simp [quick_revert, check_repo, hrepo, hc]
  have hfs : (quick_revert s cid).2.fs =
      writeMany s.root (c.files.map (fun kv => (kv.1, lookupA s.objects kv.2.hash))) s.fs := by
    rw [hqr]
    exact quick_revert_fold_eq s c
  have hjnd : ((c.files.map (fun kv => (kv.1, lookupA s.objects kv.2.hash))).map
      Prod.fst).Nodup := by
    rw [List.map_map]
    exact hnd
  refine ⟨by rw [hqr], by rw [hqr], by rw [hqr], by rw [hqr], by rw [hqr], by rw [hqr],
    ?_, ?_, ?_⟩
  · intro k e b hmem hsome
    rw [hfs]
    have hj : (k, some b) ∈ c.files.map (fun kv => (kv.1, lookupA s.objects kv.2.hash)) := by
      rw [← hsome]
      exact List.mem_map_of_mem _ hmem
    exact writeMany_lookup_hit s.root _ s.fs k (some b) hj hjnd
  · intro k e hmem hnone
    rw [hfs]
    have hj : (k, (none : Option Bytes)) ∈
        c.files.map (fun kv => (kv.1, lookupA s.objects kv.2.hash)) := by
      rw [← hnone]
      exact List.mem_map_of_mem _ hmem
    exact writeMany_lookup_hit s.root _ s.fs k none hj hjnd
  · intro q hout
    rw [hfs]
    apply writeMany_lookup_miss
    intro j hj hcontra
    obtain ⟨kv, hkv, rfl⟩ := List.mem_map.mp hj
    exact hout kv.1 (List.mem_map_of_mem Prod.fst hkv) hcontra.symm

/-- Witness for C4 at the concrete commit with one valid and one missing
blob: the valid file is restored, the broken one is skipped, HEAD moves. -/
theorem quick_revert_spec_witness :
    c4State.repoInitialized = true ∧
    get_commit_by_id c4State 1 = some c4commit ∧
    (c4commit.files.map Prod.fst).Nodup ∧
    lookupA (quick_revert c4State 1).2.fs (c4State.root ++ ["good.txt"]) =
      some (FsNode.file [1]) ∧
    lookupA (quick_revert c4State 1).2.fs (c4State.root ++ ["bad.txt"]) =
      lookupA c4State.fs (c4State.root ++ ["bad.txt"]) ∧
    (quick_revert c4State 1).2.head = 1 :=
  ⟨rfl, by decide, by decide,
    (quick_revert_spec c4State 1 c4commit rfl (by decide) (by decide)).2.2.2.2.2.2.1
      ["good.txt"] { hash := [1], size := 1, modified := 0 } [1] (by decide) (by decide),
    (quick_revert_spec c4State 1 c4commit rfl (by decide) (by decide)).2.2.2.2.2.2.2.1
      ["bad.txt"] { hash := [9], size := 1, modified := 0 } (by decide) (by decide),
    (quick_revert_spec c4State 1 c4commit rfl (by decide) (by decide)).2.1⟩

/-! ## C2: commit id density and parent links -/

theorem add_file_commits_head (s : State) (p : PathC) (m : Nat) :
    (add_file s p m).2.commits = s.commits ∧ (add_file s p m).2.head = s.head := by
  unfold add_file
  split
  · exact ⟨rfl, rfl⟩
  · split
    · exact ⟨rfl, rfl⟩
    · exact ⟨rfl, rfl⟩
    · split
      · exact ⟨rfl, rfl⟩
      · exact ⟨rfl, rfl⟩

theorem LedgerInv_commit (s : State) (msg : Option String) (now : Nat) (h : LedgerInv s) :
    LedgerInv (commit s msg now).2 := by
  obtain ⟨hid, hhead, hpar⟩ := h
  unfold commit
  split
  · exact ⟨hid, hhead, hpar⟩
  · split
    · exact ⟨hid, hhead, hpar⟩
    · refine ⟨?_, ?_, ?_⟩
      · show (s.commits ++ [_]).map Commit.id = List.range' 1 (s.commits ++ [_]).length
        rw [List.map_append, hid, List.length_append]
        have h1 : 1 + 1 * s.commits.length = s.commits.length + 1 := by omega
        have hr : List.range' 1 (s.commits.length + 1) =
            List.range' 1 s.commits.length ++ [1 + 1 * s.commits.length] :=
          List.range'_concat 1 s.commits.length
        rw [h1] at hr
        simp only [List.length_singleton]
        rw [hr]
        simp
      · show s.commits.length + 1 = (s.commits ++ [_]).length
        simp
      · show (s.commits ++ [_]).map Commit.parent =
          (List.range (s.commits ++ [_]).length).map (fun i => if i = 0 then none else some i)
        rw [List.map_append, hpar, List.length_append]
        have hr : List.range (s.commits.length + 1) = List.range s.commits.length ++
            [s.commits.length] := by
          simpa using List.range_succ s.commits.length
        simp only [List.length_singleton]
        rw [hr, List.map_append]
        congr 1
        simp only [List.map_cons, List.map_nil]
        rw [get_current_commit_id, hhead]
        rcases Nat.eq_zero_or_pos s.commits.length with hz | hpos
        · simp [hz]
        · simp [hpos, Nat.pos_iff_ne_zero.mp hpos]

theorem LedgerInv_runOps (s : State) (ops : List Op) (h : LedgerInv s) :
    LedgerInv (runOps s ops) := by
  induction ops generalizing s with
  | nil => exact h
  | cons op rest ih =>
    cases op with
    | addOp p m =>
      show LedgerInv (runOps (add_file s p m).2 rest)
      apply ih
      obtain ⟨hid, hhead, hpar⟩ := h
      obtain ⟨hc, hh⟩ := add_file_commits_head s p m
      exact ⟨by rw [hc]; exact hid, by rw [hh, hc]; exact hhead, by rw [hc]; exact hpar⟩
    | commitOp msg now =>
      show LedgerInv (runOps (commit s msg now).2 rest)
      exact ih _ (LedgerInv_commit s msg now h)

/-- C2: after any sequence of add and commit operations on a freshly
initialized repository, the ledger's commit ids are exactly `1..N` in
order (each new id being the count of existing commits plus one — dense,
strictly increasing, starting at 1), HEAD equals the number of commits
(so it names the latest commit, or 0 when none), and the i-th commit's
parent is exactly the HEAD value immediately before it was created: the
id of its predecessor, or absent for the first commit. -/
theorem commit_ids_and_parents (root : PathC) (fs : List (PathC × FsNode)) (ops : List Op) :
    (runOps (init_repo root fs) ops).commits.map Commit.id =
      List.range' 1 (runOps (init_repo root fs) ops).commits.length ∧
    (runOps (init_repo root fs) ops).head =
      (runOps (init_repo root fs) ops).commits.length ∧
    (runOps (init_repo root fs) ops).commits.map Commit.parent =
      (List.range (runOps (init_repo root fs) ops).commits.length).map
        (fun i => if i = 0 then none else some i) :=
  LedgerInv_runOps (init_repo root fs) ops ⟨rfl, rfl, rfl⟩

/-! ## C9: snapshot/restore round trip -/

theorem walkVisits_parts (root p : PathC) (h : walkVisits root p = true) :
    startsWith root p = true ∧ p.drop root.length ≠ [] ∧
      ".svcs" ∉ (p.drop root.length).dropLast := by
  unfold walkVisits at h
  cases hd : p.drop root.length with
  | nil =>
    rw [hd] at h
    simp at h
  | cons c cs =>
    rw [hd] at h
    simp at h
    exact ⟨h.1, by simp [hd], h.2⟩

theorem walkVisits_of_parts (root p : PathC) (h1 : startsWith root p = true)
    (h2 : p.drop root.length ≠ []) (h3 : ".svcs" ∉ (p.drop root.length).dropLast) :
    walkVisits root p = true := by
  unfold walkVisits
  cases hd : p.drop root.length with
  | nil => exact absurd hd h2
  | cons c cs =>
    rw [hd] at h3
    simp [h1, h3]

theorem underRootTop_parts (root p : PathC) (h : underRootTop root p = true) :
    startsWith root p = true ∧ p.drop root.length ≠ [] := by
  unfold underRootTop at h
  cases hd : p.drop root.length with
  | nil =>
    rw [hd] at h
    simp at h
  | cons c cs =>
    rw [hd] at h
    simp at h
    exact ⟨h.1, by simp [hd]⟩

theorem lookupA_of_mem_nodup {α β : Type} [DecidableEq α] (l : List (α × β)) (k : α) (v : β)
    (hm : (k, v) ∈ l) (hnd : (l.map Prod.fst).Nodup) : lookupA l k = some v := by
  induction l with
  | nil => simp at hm
  | cons kv rest ih =>
    obtain ⟨a, b⟩ := kv
    simp only [List.map_cons] at hnd
    obtain ⟨hnotin, hnd2⟩ := List.nodup_cons.mp hnd
    rcases List.mem_cons.mp hm with heq | htail
    · cases heq
      simp [lookupA]
    · have hka : ¬(a = k) := by
        intro hh
        subst hh
        exact hnotin (List.mem_map_of_mem Prod.fst htail)
      simp only [lookupA, hka, if_false]
      exact ih htail hnd2

theorem mem_snapEntries (root arcP : PathC) (fs : List (PathC × FsNode)) (k : PathC)
    (b : Bytes) :
    (k, b) ∈ snapEntries root arcP fs ↔
      ∃ p, (p, FsNode.file b) ∈ fs ∧ walkVisits root p = true ∧ p ≠ arcP ∧
        k = p.drop root.length := by
  induction fs with
  | nil => simp [snapEntries]
  | cons kv rest ih =>
    obtain ⟨p0, node⟩ := kv
    cases node with
    | dir =>
      show (k, b) ∈ snapEntries root arcP rest ↔ _
      rw [ih]
      constructor
      · rintro ⟨p, hp, hw, hne, hk⟩
        exact ⟨p, List.mem_cons_of_mem _ hp, hw, hne, hk⟩
      · rintro ⟨p, hp, hw, hne, hk⟩
        rcases List.mem_cons.mp hp with heq | htail
        · simp at heq
        · exact ⟨p, htail, hw, hne, hk⟩
    | file b0 =>
      by_cases hc : (walkVisits root p0 && decide (p0 ≠ arcP)) = true
      · have hw0 : walkVisits root p0 = true := by
          simp at hc
          exact hc.1
        have hne0 : p0 ≠ arcP := by
          simp at hc
          exact hc.2
        show (k, b) ∈ (if _ then _ else _) ↔ _
        rw [if_pos hc]
        constructor
        · intro hmem
          rcases List.mem_cons.mp hmem with heq | htail
          · have hk : k = p0.drop root.length := congrArg Prod.fst heq
            have hb : b = b0 := congrArg Prod.snd heq
            subst hb
            exact ⟨p0, List.mem_cons_self _ _, hw0, hne0, hk⟩
          · obtain ⟨p, hp, hw, hne, hk⟩ := ih.mp htail
            exact ⟨p, List.mem_cons_of_mem _ hp, hw, hne, hk⟩
        · rintro ⟨p, hp, hw, hne, hk⟩
          rcases List.mem_cons.mp hp with heq | htail
          · have hp0 : p = p0 := congrArg Prod.fst heq
            have hb : FsNode.file b = FsNode.file b0 := congrArg Prod.snd heq
            injection hb with hb
            subst hb
            subst hp0
            rw [hk]
            exact List.mem_cons_self _ _
          · exact List.mem_cons_of_mem _ (ih.mpr ⟨p, htail, hw, hne, hk⟩)
      · show (k, b) ∈ (if _ then _ else _) ↔ _
        rw [if_neg hc]
        rw [ih]
        constructor
        · rintro ⟨p, hp, hw, hne, hk⟩
          exact ⟨p, List.mem_cons_of_mem _ hp, hw, hne, hk⟩
        · rintro ⟨p, hp, hw, hne, hk⟩
          rcases List.mem_cons.mp hp with heq | htail
          · have hp0 : p = p0 := congrArg Prod.fst heq
            subst hp0
            exact absurd (by simp [hw, hne]) hc
          · exact ⟨p, htail, hw, hne, hk⟩

theorem snapEntries_keys_nodup (root arcP : PathC) (fs : List (PathC × FsNode))
    (hnd : (fs.map Prod.fst).Nodup) : ((snapEntries root arcP fs).map Prod.fst).Nodup := by
  induction fs with
  | nil => simp [snapEntries]
  | cons kv rest ih =>
    obtain ⟨p0, node⟩ := kv
    simp only [List.map_cons] at hnd
    obtain ⟨hnotin, hnd2⟩ := List.nodup_cons.mp hnd
    cases node with
    | dir =>
      show ((snapEntries root arcP rest).map Prod.fst).Nodup
      exact ih hnd2
    | file b0 =>
      by_cases hc : (walkVisits root p0 && decide (p0 ≠ arcP)) = true
      · show (((if _ then _ else _) : Archive).map Prod.fst).Nodup
        rw [if_pos hc]
        simp only [List.map_cons]
        rw [List.nodup_cons]
        refine ⟨?_, ih hnd2⟩
        intro hmem
        obtain ⟨⟨k1, b1⟩, hkb, hk1⟩ := List.mem_map.mp hmem
        obtain ⟨p, hp, hw, hne, hk⟩ := (mem_snapEntries root arcP rest k1 b1).mp hkb
        have hws : startsWith root p = true := (walkVisits_parts root p hw).1
        have hw0s : startsWith root p0 = true := by
          simp at hc
          exact (walkVisits_parts root p0 hc.1).1
        have hk1' : k1 = p0.drop root.length := hk1
        have hpp : p = p0 := by
          calc p = root ++ p.drop root.length := (append_drop_of_startsWith root p hws).symm
            _ = root ++ k1 := by rw [hk]
            _ = root ++ p0.drop root.length := by rw [hk1']
            _ = p0 := append_drop_of_startsWith root p0 hw0s
        exact hnotin (hpp ▸ List.mem_map_of_mem Prod.fst hp)
      · show (((if _ then _ else _) : Archive).map Prod.fst).Nodup
        rw [if_neg hc]
        exact ih hnd2

theorem extract_fold_eq (root : PathC) (entries : Archive) (fs0 : List (PathC × FsNode)) :
    entries.foldl (fun acc e => insertA acc (root ++ e.1) (FsNode.file e.2)) fs0 =
    writeMany root (entries.map (fun e => (e.1, some e.2))) fs0 := by
  rw [writeMany, List.foldl_map]

/-- The heart of the round trip: extracting the snapshot entries over the
cleared working tree restores every lookup to its pre-snapshot value. -/
theorem roundtrip_lookup (root arcP : PathC) (fs : List (PathC × FsNode)) (q : PathC)
    (hnd : (fs.map Prod.fst).Nodup)
    (hsafe : ∀ kv ∈ fs, underRootTop root kv.1 = true →
      kv.2 ≠ FsNode.dir ∧ ".svcs" ∉ (kv.1.drop root.length).dropLast)
    (hfresh : lookupA fs arcP = none) :
    lookupA (writeMany root ((snapEntries root arcP fs).map (fun e => (e.1, some e.2)))
        (fs.filter (fun kv => !underRootTop root kv.1))) q = lookupA fs q := by
  have hkeysnd := snapEntries_keys_nodup root arcP fs hnd
  have hjobsnd : (((snapEntries root arcP fs).map
      (fun e => (e.1, some e.2))).map Prod.fst).Nodup := by
    rw [List.map_map]
    exact hkeysnd
  have hclear : lookupA (fs.filter (fun kv => !underRootTop root kv.1)) q =
      if !underRootTop root q then lookupA fs q else none :=
    lookupA_filter_key (fun x => !underRootTop root x) fs q
  have htarget : ∀ k b, (k, b) ∈ snapEntries root arcP fs →
      (root ++ k, FsNode.file b) ∈ fs ∧ walkVisits root (root ++ k) = true ∧
        root ++ k ≠ arcP := by
    intro k b hkb
    obtain ⟨p, hp, hw, hne, hk⟩ := (mem_snapEntries root arcP fs k b).mp hkb
    have hws := (walkVisits_parts root p hw).1
    have hpk : root ++ k = p := by
      rw [hk]
      exact append_drop_of_startsWith root p hws
    rw [hpk]
    exact ⟨hp, hw, hne⟩
  cases hq : lookupA fs q with
  | none =>
    have hqkeys : q ∉ fs.map Prod.fst := (lookupA_eq_none_iff fs q).mp hq
    have hmiss : ∀ j ∈ (snapEntries root arcP fs).map (fun e => (e.1, some e.2)),
        root ++ j.1 ≠ q := by
      intro j hj hcontra
      obtain ⟨e, he, rfl⟩ := List.mem_map.mp hj
      obtain ⟨hkey, _, _⟩ := htarget e.1 e.2 (by simpa using he)
      exact hqkeys (hcontra ▸ List.mem_map_of_mem Prod.fst hkey)
    rw [writeMany_lookup_miss _ _ _ _ hmiss, hclear, hq]
    split <;> rfl
  | some v =>
    have hqmem : (q, v) ∈ fs := lookupA_some_mem fs q v hq
    by_cases hu : underRootTop root q = true
    · obtain ⟨hnotdir, hsvcs⟩ := hsafe (q, v) hqmem hu
      obtain ⟨hws, hdne⟩ := underRootTop_parts root q hu
      cases v with
      | dir => exact absurd rfl hnotdir
      | file b =>
        have hwv : walkVisits root q = true := walkVisits_of_parts root q hws hdne hsvcs
        have hqarc : q ≠ arcP := by
          intro hh
          rw [hh, hfresh] at hq
          simp at hq
        have hent : (q.drop root.length, b) ∈ snapEntries root arcP fs :=
          (mem_snapEntries root arcP fs _ b).mpr ⟨q, hqmem, hwv, hqarc, rfl⟩
        have hjob : (q.drop root.length, some b) ∈
            (snapEntries root arcP fs).map (fun e => (e.1, some e.2)) :=
          List.mem_map_of_mem _ hent
        have hhit := writeMany_lookup_hit root _
          (fs.filter (fun kv => !underRootTop root kv.1)) (q.drop root.length) (some b)
          hjob hjobsnd
        rw [append_drop_of_startsWith root q hws] at hhit
        rw [hhit]
        rfl
    · have hu' : underRootTop root q = false := by
        simpa using hu
      cases v with
      | dir =>
        have hmiss : ∀ j ∈ (snapEntries root arcP fs).map (fun e => (e.1, some e.2)),
            root ++ j.1 ≠ q := by
          intro j hj hcontra
          obtain ⟨e, he, rfl⟩ := List.mem_map.mp hj
          obtain ⟨hkey, _, _⟩ := htarget e.1 e.2 (by simpa using he)
          rw [hcontra] at hkey
          have := lookupA_of_mem_nodup fs q (FsNode.file e.2) hkey hnd
          rw [hq] at this
          simp at this
        rw [writeMany_lookup_miss _ _ _ _ hmiss, hclear, hu']
        simpa using hq
      | file b =>
        by_cases hwv : walkVisits root q = true
        · by_cases hqarc : q = arcP
          · rw [hqarc, hfresh] at hq
            simp at hq
          · have hws : startsWith root q = true := (walkVisits_parts root q hwv).1
            have hent : (q.drop root.length, b) ∈ snapEntries root arcP fs :=
              (mem_snapEntries root arcP fs _ b).mpr ⟨q, hqmem, hwv, hqarc, rfl⟩
            have hjob : (q.drop root.length, some b) ∈
                (snapEntries root arcP fs).map (fun e => (e.1, some e.2)) :=
              List.mem_map_of_mem _ hent
            have hhit := writeMany_lookup_hit root _
              (fs.filter (fun kv => !underRootTop root kv.1)) (q.drop root.length) (some b)
              hjob hjobsnd
            rw [append_drop_of_startsWith root q hws] at hhit
            rw [hhit]
            rfl
        · have hmiss : ∀ j ∈ (snapEntries root arcP fs).map (fun e => (e.1, some e.2)),
              root ++ j.1 ≠ q := by
            intro j hj hcontra
            obtain ⟨e, he, rfl⟩ := List.mem_map.mp hj
            obtain ⟨hkey, hwk, _⟩ := htarget e.1 e.2 (by simpa using he)
            rw [hcontra] at hwk
            exact hwv hwk
          rw [writeMany_lookup_miss _ _ _ _ hmiss, hclear, hu']
          simpa using hq

/-- C9 counterexample: the snapshot walk prunes every directory named
`.svcs`, not only the metadata directory, while the restore deletion only
spares the top-level `.svcs`; a file inside a nested directory named
`.svcs` is therefore dropped by `restore(snapshot())`, so the claimed
byte-for-byte round trip fails. -/
theorem snapshot_restore_nested_svcs_lost :
    lookupA c9State.fs ["r", "a", ".svcs", "f.txt"] = some (FsNode.file [7]) ∧
    (create_snapshot c9State (some "snap") 0).1 = true ∧
    (restore_from_snapshot (create_snapshot c9State (some "snap") 0).2
        (snapArcPath c9State (some "snap") 0)).1 = true ∧
    lookupA (restore_from_snapshot (create_snapshot c9State (some "snap") 0).2
        (snapArcPath c9State (some "snap") 0)).2.fs ["r", "a", ".svcs", "f.txt"] = none := by
  decide

/-- C9 (amended): for a working tree of regular files none of which lies
below a directory named `.svcs` other than the metadata directory itself,
and with no pre-existing file at the archive path, restoring the snapshot
just taken reproduces every working-tree lookup byte-for-byte — files
under the metadata directory and files outside the root included — and
leaves the ledger, staging area, HEAD and object store untouched. -/
theorem snapshot_restore_roundtrip (s : State) (name : Option String) (now : Nat)
    (hrepo : s.repoInitialized = true)
    (hnd : (s.fs.map Prod.fst).Nodup)
    (hsafe : SnapSafe s)
    (hfresh : lookupA s.fs (snapArcPath s name now) = none) :
    (create_snapshot s name now).1 = true ∧
    (restore_from_snapshot (create_snapshot s name now).2 (snapArcPath s name now)).1 = true ∧
    (∀ q, lookupA (restore_from_snapshot (create_snapshot s name now).2
        (snapArcPath s name now)).2.fs q = lookupA s.fs q) ∧
    (restore_from_snapshot (create_snapshot s name now).2
        (snapArcPath s name now)).2.commits = s.commits ∧
    (restore_from_snapshot (create_snapshot s name now).2
        (snapArcPath s name now)).2.staging = s.staging ∧
    (restore_from_snapshot (create_snapshot s name now).2
        (snapArcPath s name now)).2.head = s.head ∧
    (restore_from_snapshot (create_snapshot s name now).2
        (snapArcPath s name now)).2.objects = s.objects := by
  have h1 : create_snapshot s name now =
      (true, { s with archives := (insertA s.archives (snapArcPath s name now) (snapEntries s.root (snapArcPath s name now) s.fs)) }) := by
    simp [create_snapshot, check_repo, hrepo]
  have hl : lookupA (insertA s.archives (snapArcPath s name now)
      (snapEntries s.root (snapArcPath s name now) s.fs)) (snapArcPath s name now) =
      some (snapEntries s.root (snapArcPath s name now) s.fs) := lookupA_insertA_self _ _ _
  have h2 : restore_from_snapshot (create_snapshot s name now).2 (snapArcPath s name now) =
      (true, { s with
          fs := ((snapEntries s.root (snapArcPath s name now) s.fs).foldl (fun acc e => insertA acc (s.root ++ e.1) (FsNode.file e.2)) (s.fs.filter (fun kv => !underRootTop s.root kv.1))),
          archives := ((insertA s.archives (snapArcPath s name now) (snapEntries s.root (snapArcPath s name now) s.fs)).filter (fun kv => !underRootTop s.root kv.1)) }) := by
    rw [h1]
    simp [restore_from_snapshot, hl]
  refine ⟨by rw [h1], by rw [h2], ?_, by rw [h2], by rw [h2], by rw [h2], by rw [h2]⟩
  intro q
  rw [h2]
  show lookupA ((snapEntries s.root (snapArcPath s name now) s.fs).foldl
      (fun acc e => insertA acc (s.root ++ e.1) (FsNode.file e.2))
      (s.fs.filter (fun kv => !underRootTop s.root kv.1))) q = lookupA s.fs q
  rw [extract_fold_eq]
  exact roundtrip_lookup s.root (snapArcPath s name now) s.fs q hnd hsafe hfresh

/-- Witness for C9 (amended) on a concrete tree with a nested directory, a
metadata file and a file outside the root. -/
theorem snapshot_restore_roundtrip_witness :
    c9Good.repoInitialized = true ∧
    (c9Good.fs.map Prod.fst).Nodup ∧
    SnapSafe c9Good ∧
    lookupA c9Good.fs (snapArcPath c9Good (some "snap") 0) = none ∧
    (∀ q, lookupA (restore_from_snapshot (create_snapshot c9Good (some "snap") 0).2
        (snapArcPath c9Good (some "snap") 0)).2.fs q = lookupA c9Good.fs q) :=
  ⟨rfl, by decide, by unfold SnapSafe; decide, by decide,
    (snapshot_restore_roundtrip c9Good (some "snap") 0 rfl (by decide)
      (by unfold SnapSafe; decide) (by decide)).2.2.1⟩

end SimpleVCS
